import Mathlib

/-!
# The decision cache of mosquitto-redis-auth (`cache.c`)

A shallow embedding of `cache.c`.

* A C string (`char *` pointing at NUL-terminated bytes) is a `List Char`; a pointer that may
  be `NULL` is an `Option (List Char)`.
* The uthash table hanging off `struct userdata` is the list of its nodes in insertion order
  (the order `HASH_ITER` walks). `HASH_FIND_STR` yields the first node whose key equals the
  string looked up; writing through that pointer, or `HASH_DEL` of it, acts on that node.
* `time(NULL)` is an explicit argument `now`. `time_t` values and the `int` fields are
  integers; `a->seconds + cacheseconds` is computed in `time_t`, taken wide enough not to wrap.
* The uninitialised stack buffer `char hex[SHA_DIGEST_LENGTH * 2 + 1]` of the four public
  functions is an explicit argument `hex`: the string that happens to be in it on entry.
* What comes from libraries (OpenSSL's digest, the value of `MOSQ_ERR_UNKNOWN`) is a
  parameter `L : Libs`. The digest is a function of the bytes it is given: the same string
  gets the same digest on every call.
-/

namespace Cache

/-! ## Library side -/

/-- The facts about the libraries `cache.c` is linked against that its behaviour depends on. -/
structure Libs where
  /-- The value of the constant `MOSQ_ERR_UNKNOWN` of `mosquitto.h`. -/
  MOSQ_ERR_UNKNOWN : Int
  /-- Whether `EVP_get_digestbyname("SHA1")` returns a digest (non-`NULL`). -/
  sha1_found : Bool
  /-- The run `EVP_DigestInit_ex`, `EVP_DigestUpdate`, `EVP_DigestFinal_ex` over the given bytes:
  `some bytes` when `EVP_DigestFinal_ex` writes `bytes` to `out` and their number to `md_len`,
  `none` when it writes nothing. -/
  EVP_Digest : List Char → Option (List (Fin 256))

/-- The constant `SHA_DIGEST_LENGTH` of `openssl/sha.h`. -/
def SHA_DIGEST_LENGTH : Nat := 20

/-- Conversion of an integer to `unsigned int` (32 bits). -/
def to_unsigned (i : Int) : Nat := (i % 2 ^ 32).toNat

/-- Conversion of an `unsigned int` to `int` (32 bits, two's complement). -/
def to_int (n : Nat) : Int :=
  if n % 2 ^ 32 < 2 ^ 31 then ((n % 2 ^ 32 : Nat) : Int) else ((n % 2 ^ 32 : Nat) : Int) - 2 ^ 32

/-- The conversion `%d` of `printf`: decimal digits, preceded by `-` for a negative value. -/
def fmt_d : Int → List Char
  | Int.ofNat n => Nat.toDigits 10 n
  | Int.negSucc n => '-' :: Nat.toDigits 10 (n + 1)

/-- The call `sprintf(data, "%s:%s:%d", username, topic, access)`: the string left in `data`. -/
def sprintf_s_s_d (username topic : List Char) (access : Int) : List Char :=
  username ++ ':' :: (topic ++ ':' :: fmt_d access)

/-- One uppercase hexadecimal digit, as `%X` prints it. -/
def X_digit (d : Nat) : Char :=
  if d < 10 then Char.ofNat (48 + d) else Char.ofNat (55 + d)

/-- The conversion `%02X` of `printf` applied to an `unsigned char`: two uppercase hexadecimal
digits, the high one first. -/
def fmt_02X (b : Fin 256) : List Char :=
  [X_digit (b.val / 16), X_digit (b.val % 16)]

/-! ## `cache.c` -/

/-- The function `sha_hash`: the returned `md_len` and the content of `out` afterwards
(`out` on entry is passed in, and is what stays there when nothing is written). -/
def sha_hash (L : Libs) (data : List Char) (out : List (Fin 256)) : Nat × List (Fin 256) :=
  let md_len : Nat := to_unsigned (-1)
  if L.sha1_found then
    match L.EVP_Digest data with
    | some bytes => (bytes.length, bytes)
    | none => (md_len, out)
  else (md_len, out)

/-- The `for` loop of `hexify` run for `i = 0 .. n-1`: it starts from the empty string
(`*hex = 0`) and step `i` prints the two digits of `hashdata[i]` at offset `i*2`. -/
def hexify_loop (hashdata : List (Fin 256)) (n : Nat) : List Char :=
  (List.range n).foldl (fun hex i => hex.take (i * 2) ++ fmt_02X (hashdata.getD i 0)) []

/-- The function `hexify`: the string in the buffer `hex` when it returns, given the string
`hex` held on entry. -/
def hexify (L : Libs) (username topic : List Char) (access : Int) (hex : List Char) :
    List Char :=
  let data := sprintf_s_s_d username topic access
  let r := sha_hash L data []
  let hashdata := r.2
  let mdlen : Int := to_int r.1
  if mdlen ≠ (SHA_DIGEST_LENGTH : Int) then hex
  else hexify_loop hashdata SHA_DIGEST_LENGTH

/-- The node type `struct maincache`: key, cached decision, time of recording. -/
structure maincache where
  hex : List Char
  granted : Int
  seconds : Int
  deriving DecidableEq, Repr

/-- The lookup `HASH_FIND_STR(head, hex, a)`: the first node with key `hex`, if any. -/
def HASH_FIND_STR : List maincache → List Char → Option maincache
  | [], _ => none
  | a :: rest, hex => if a.hex = hex then some a else HASH_FIND_STR rest hex

/-- The assignments `a->granted = granted; a->seconds = now;` through the pointer that
`HASH_FIND_STR` returned for `hex`. -/
def assign : List maincache → List Char → Int → Int → List maincache
  | [], _, _, _ => []
  | a :: rest, hex, granted, now =>
    if a.hex = hex then { a with granted := granted, seconds := now } :: rest
    else a :: assign rest hex granted now

/-- The insertion `HASH_ADD_STR(head, hex, a)`: the node goes to the end of the table. -/
def HASH_ADD_STR (head : List maincache) (a : maincache) : List maincache :=
  head ++ [a]

/-- The removal `HASH_DEL(head, a)` of the node that `HASH_FIND_STR` returned for `hex`. -/
def HASH_DEL : List maincache → List Char → List maincache
  | [], _ => []
  | a :: rest, hex => if a.hex = hex then rest else a :: HASH_DEL rest hex

/-- The function `create_update`, run when the clock reads `now`: the table afterwards. -/
def create_update (cached : List maincache) (hex : List Char) (granted cacheseconds : Int)
    (now : Int) : List maincache :=
  let cached1 :=
    match HASH_FIND_STR cached hex with
    | some _ => assign cached hex granted now
    | none => HASH_ADD_STR cached { hex := hex, granted := granted, seconds := now }
  cached1.filter (fun a => !decide (now > a.seconds + cacheseconds))

/-- The function `find_and_expire`, run when the clock reads `now`: the returned value and
the table afterwards. -/
def find_and_expire (L : Libs) (cached : List maincache) (hex : List Char)
    (cacheseconds : Int) (now : Int) : Int × List maincache :=
  let granted := L.MOSQ_ERR_UNKNOWN
  match HASH_FIND_STR cached hex with
  | some a =>
    if now > a.seconds + cacheseconds then (granted, HASH_DEL cached hex)
    else (a.granted, cached)
  | none => (granted, cached)

/-- The fields of `struct userdata` that `cache.c` uses. -/
structure userdata where
  cacheseconds : Int
  aclcache : List maincache
  authcache : List maincache
  deriving DecidableEq, Repr

/-- The function `acl_cache`: the user data afterwards. -/
def acl_cache (L : Libs) (now : Int) (hex : List Char) (username topic : Option (List Char))
    (access granted : Int) (ud : userdata) : userdata :=
  if ud.cacheseconds ≤ 0 then ud
  else
    match username, topic with
    | some u, some t =>
      let hex := hexify L u t access hex
      { ud with aclcache := create_update ud.aclcache hex granted ud.cacheseconds now }
    | _, _ => ud

/-- The function `acl_cache_q`: the returned value and the user data afterwards. -/
def acl_cache_q (L : Libs) (now : Int) (hex : List Char) (username topic : Option (List Char))
    (access : Int) (ud : userdata) : Int × userdata :=
  if ud.cacheseconds ≤ 0 then (L.MOSQ_ERR_UNKNOWN, ud)
  else
    match username, topic with
    | some u, some t =>
      let hex := hexify L u t access hex
      let r := find_and_expire L ud.aclcache hex ud.cacheseconds now
      (r.1, { ud with aclcache := r.2 })
    | _, _ => (L.MOSQ_ERR_UNKNOWN, ud)

/-- The function `auth_cache`: the user data afterwards. -/
def auth_cache (L : Libs) (now : Int) (hex : List Char) (username password : Option (List Char))
    (granted : Int) (ud : userdata) : userdata :=
  if ud.cacheseconds ≤ 0 then ud
  else
    match username, password with
    | some u, some p =>
      let hex := hexify L u p 0 hex
      { ud with authcache := create_update ud.authcache hex granted ud.cacheseconds now }
    | _, _ => ud

/-- The function `auth_cache_q`: the returned value and the user data afterwards. -/
def auth_cache_q (L : Libs) (now : Int) (hex : List Char)
    (username password : Option (List Char)) (ud : userdata) : Int × userdata :=
  if ud.cacheseconds ≤ 0 then (L.MOSQ_ERR_UNKNOWN, ud)
  else
    match username, password with
    | some u, some p =>
      let hex := hexify L u p 0 hex
      let r := find_and_expire L ud.authcache hex ud.cacheseconds now
      (r.1, { ud with authcache := r.2 })
    | _, _ => (L.MOSQ_ERR_UNKNOWN, ud)

/-! ## Sample inputs -/

/-- A sample library setting: `MOSQ_ERR_UNKNOWN` is 13, SHA1 is found, and the digest is a
stand-in that spreads the first twenty bytes of its input over the twenty digest bytes. -/
def sampleLibs : Libs where
  MOSQ_ERR_UNKNOWN := 13
  sha1_found := true
  EVP_Digest := fun data =>
    some ((List.range 20).map (fun i => Fin.ofNat ((data.getD i 'z').toNat + data.length)))

/-- A sample library setting in which SHA1 is not found. -/
def noSha1 : Libs where
  MOSQ_ERR_UNKNOWN := 13
  sha1_found := false
  EVP_Digest := fun _ => none

/-- The test of `hexify` on the digest length passes: `mdlen == SHA_DIGEST_LENGTH`, so the
key is written. -/
def digest_ok (L : Libs) (username topic : List Char) (access : Int) : Prop :=
  to_int (sha_hash L (sprintf_s_s_d username topic access) []).1 = (SHA_DIGEST_LENGTH : Int)

instance (L : Libs) (username topic : List Char) (access : Int) :
    Decidable (digest_ok L username topic access) := by
  unfold digest_ok; infer_instance

/-- The keys of a table are pairwise different (what uthash asks of its callers). -/
def unique_keys (cached : List maincache) : Prop :=
  (cached.map (fun a => a.hex)).Nodup

instance (cached : List maincache) : Decidable (unique_keys cached) := by
  unfold unique_keys; infer_instance

/-- The number a string of decimal digits stands for, read from the left after `x`. -/
def dec_value (x : Nat) (s : List Char) : Nat :=
  s.foldl (fun acc c => acc * 10 + (c.toNat - 48)) x

/-- The value of one hexadecimal digit character, `0`-`9` or `A`-`F`. -/
def hex_value (c : Char) : Nat :=
  if c.isDigit then c.toNat - 48 else c.toNat - 55

/-- The sixteen characters `%02X` can print. -/
def hex_chars : List Char :=
  ['0', '1', '2', '3', '4', '5', '6', '7', '8', '9', 'A', 'B', 'C', 'D', 'E', 'F']

/-- One call on a table, with its arguments and the clock reading at the call:
`create_update` or `find_and_expire`. -/
inductive cache_call where
  | record (hex : List Char) (granted cacheseconds now : Int)
  | query (hex : List Char) (cacheseconds now : Int)
  deriving DecidableEq, Repr

/-- The table after one call. -/
def run_call (L : Libs) (cached : List maincache) : cache_call → List maincache
  | cache_call.record hex granted cacheseconds now =>
    create_update cached hex granted cacheseconds now
  | cache_call.query hex cacheseconds now => (find_and_expire L cached hex cacheseconds now).2

/-- The table after a sequence of calls, starting from the empty table. -/
def run_calls (L : Libs) (calls : List cache_call) : List maincache :=
  calls.foldl (run_call L) []

/-! ## Lemmas on the table operations -/

theorem HASH_FIND_STR_hex {l : List maincache} {hex : List Char} {a : maincache}
    (h : HASH_FIND_STR l hex = some a) : a.hex = hex := by
  induction l with
  | nil => simp [HASH_FIND_STR] at h
  | cons b rest ih =>
    unfold HASH_FIND_STR at h
    split at h
    · cases h; assumption
    · exact ih h

theorem HASH_FIND_STR_mem {l : List maincache} {hex : List Char} {a : maincache}
    (h : HASH_FIND_STR l hex = some a) : a ∈ l := by
  induction l with
  | nil => simp [HASH_FIND_STR] at h
  | cons b rest ih =>
    unfold HASH_FIND_STR at h
    split at h
    · cases h; exact List.mem_cons_self _ _
    · exact List.mem_cons_of_mem _ (ih h)

theorem HASH_FIND_STR_eq_none {l : List maincache} {hex : List Char} :
    HASH_FIND_STR l hex = none ↔ ∀ e ∈ l, e.hex ≠ hex := by
  induction l with
  | nil => simp [HASH_FIND_STR]
  | cons b rest ih =>
    unfold HASH_FIND_STR
    by_cases hb : b.hex = hex
    · simp [hb]
    · simp [hb, ih]

theorem HASH_FIND_STR_assign {l : List maincache} {hex : List Char} {a : maincache}
    (granted now : Int) (h : HASH_FIND_STR l hex = some a) :
    HASH_FIND_STR (assign l hex granted now) hex
      = some { hex := hex, granted := granted, seconds := now } := by
  induction l with
  | nil => simp [HASH_FIND_STR] at h
  | cons b rest ih =>
    unfold HASH_FIND_STR at h
    unfold assign
    by_cases hb : b.hex = hex
    · simp [hb, HASH_FIND_STR]
    · simp only [hb, if_false] at h ⊢
      unfold HASH_FIND_STR
      simp only [hb, if_false]
      exact ih h

theorem HASH_FIND_STR_add {l : List maincache} {a : maincache}
    (h : HASH_FIND_STR l a.hex = none) :
    HASH_FIND_STR (HASH_ADD_STR l a) a.hex = some a := by
  unfold HASH_ADD_STR
  induction l with
  | nil => simp [HASH_FIND_STR]
  | cons b rest ih =>
    unfold HASH_FIND_STR at h
    by_cases hb : b.hex = a.hex
    · simp [hb] at h
    · simp only [hb, if_false] at h
      simp only [List.cons_append, HASH_FIND_STR, hb, if_false]
      exact ih h

theorem HASH_FIND_STR_filter {l : List maincache} {hex : List Char} {a : maincache}
    (p : maincache → Bool) (h : HASH_FIND_STR l hex = some a) (hp : p a = true) :
    HASH_FIND_STR (l.filter p) hex = some a := by
  induction l with
  | nil => simp [HASH_FIND_STR] at h
  | cons b rest ih =>
    unfold HASH_FIND_STR at h
    by_cases hb : b.hex = hex
    · simp only [hb, if_true, Option.some.injEq] at h
      subst h
      simp [List.filter, hp, HASH_FIND_STR, hb]
    · simp only [hb, if_false] at h
      by_cases hpb : p b = true
      · simp [List.filter, hpb, HASH_FIND_STR, hb, ih h]
      · simp [List.filter, hpb, ih h]

/-- After `create_update` the lookup of the key finds the node just written. -/
theorem HASH_FIND_STR_create_update (cached : List maincache) (hex : List Char)
    (granted cacheseconds now : Int) (h : 0 ≤ cacheseconds) :
    HASH_FIND_STR (create_update cached hex granted cacheseconds now) hex
      = some { hex := hex, granted := granted, seconds := now } := by
  unfold create_update
  have hp : (fun a : maincache => !decide (now > a.seconds + cacheseconds))
      { hex := hex, granted := granted, seconds := now } = true := by
    simp; omega
  cases hf : HASH_FIND_STR cached hex with
  | some a => exact HASH_FIND_STR_filter _ (HASH_FIND_STR_assign granted now hf) hp
  | none =>
    have := HASH_FIND_STR_add (l := cached)
      (a := { hex := hex, granted := granted, seconds := now }) hf
    exact HASH_FIND_STR_filter _ this hp

theorem HASH_DEL_hex {l : List maincache} (hex : List Char) (hu : unique_keys l) :
    ∀ e ∈ HASH_DEL l hex, e.hex ≠ hex := by
  induction l with
  | nil => simp [HASH_DEL]
  | cons b rest ih =>
    unfold unique_keys at hu ih
    simp only [List.map_cons, List.nodup_cons, List.mem_map, not_exists, not_and] at hu
    unfold HASH_DEL
    by_cases hb : b.hex = hex
    · simp only [hb, if_true]
      intro e he heq
      exact hu.1 e he (heq.trans hb.symm)
    · simp only [hb, if_false, List.mem_cons]
      rintro e (rfl | he)
      · exact hb
      · exact ih hu.2 e he

theorem assign_filter_other (l : List maincache) (hex : List Char) (granted now : Int) :
    (assign l hex granted now).filter (fun e => decide (e.hex ≠ hex))
      = l.filter (fun e => decide (e.hex ≠ hex)) := by
  induction l with
  | nil => rfl
  | cons b rest ih =>
    unfold assign
    by_cases hb : b.hex = hex
    · simp [hb, List.filter]
    · have ih1 := ih
      simp only [ne_eq, decide_not] at ih1
      simp [hb, List.filter, ih1]

theorem HASH_ADD_STR_filter_other (l : List maincache) (a : maincache) :
    (HASH_ADD_STR l a).filter (fun e => decide (e.hex ≠ a.hex))
      = l.filter (fun e => decide (e.hex ≠ a.hex)) := by
  simp [HASH_ADD_STR, List.filter_append, List.filter]

/-- The nodes of other keys after `create_update`: those there before, less the expired. -/
theorem create_update_filter_other (cached : List maincache) (hex : List Char)
    (granted cacheseconds now : Int) :
    (create_update cached hex granted cacheseconds now).filter (fun e => decide (e.hex ≠ hex))
      = (cached.filter (fun e => decide (e.hex ≠ hex))).filter
          (fun a => !decide (now > a.seconds + cacheseconds)) := by
  have hcomm : ∀ l : List maincache,
      (l.filter (fun a => !decide (now > a.seconds + cacheseconds))).filter
          (fun e => decide (e.hex ≠ hex))
        = (l.filter (fun e => decide (e.hex ≠ hex))).filter
          (fun a => !decide (now > a.seconds + cacheseconds)) := by
    intro l
    rw [List.filter_filter, List.filter_filter]
    congr 1
    funext e
    exact Bool.and_comm _ _
  unfold create_update
  cases HASH_FIND_STR cached hex with
  | some a =>
    simp only
    rw [hcomm, assign_filter_other]
  | none =>
    simp only
    rw [hcomm]
    exact congrArg _
      (HASH_ADD_STR_filter_other cached { hex := hex, granted := granted, seconds := now })

theorem assign_keys (l : List maincache) (hex : List Char) (granted now : Int) :
    (assign l hex granted now).map (fun a => a.hex) = l.map (fun a => a.hex) := by
  induction l with
  | nil => rfl
  | cons b rest ih =>
    unfold assign
    by_cases hb : b.hex = hex
    · simp [hb]
    · simp [hb, ih]

/-- The function `create_update` keeps the keys of the table unique. -/
theorem create_update_unique_keys (cached : List maincache) (hex : List Char)
    (granted cacheseconds now : Int) (hu : unique_keys cached) :
    unique_keys (create_update cached hex granted cacheseconds now) := by
  unfold unique_keys at hu ⊢
  unfold create_update
  refine List.Nodup.sublist (List.Sublist.map _ (List.filter_sublist _)) ?_
  cases hf : HASH_FIND_STR cached hex with
  | some a => simpa [assign_keys] using hu
  | none =>
    simp only [HASH_ADD_STR, List.map_append, List.map_cons, List.map_nil]
    rw [List.nodup_append]
    refine ⟨hu, List.nodup_singleton _, ?_⟩
    rw [List.disjoint_singleton]
    intro hmem
    rcases List.mem_map.1 hmem with ⟨e, he, hk⟩
    exact (HASH_FIND_STR_eq_none.1 hf) e he hk

/-- With unique keys, the node the lookup finds is the only node of its key. -/
theorem filter_key_of_find {l : List maincache} {hex : List Char} {a : maincache}
    (hu : unique_keys l) (h : HASH_FIND_STR l hex = some a) :
    l.filter (fun e => decide (e.hex = hex)) = [a] := by
  induction l with
  | nil => simp [HASH_FIND_STR] at h
  | cons b rest ih =>
    unfold unique_keys at hu ih
    simp only [List.map_cons, List.nodup_cons, List.mem_map, not_exists, not_and] at hu
    unfold HASH_FIND_STR at h
    by_cases hb : b.hex = hex
    · simp only [hb, if_true, Option.some.injEq] at h
      subst h
      have hrest : rest.filter (fun e => decide (e.hex = hex)) = [] := by
        rw [List.filter_eq_nil_iff]
        intro e he
        simpa using fun heq => hu.1 e he (heq.trans hb.symm)
      simp [List.filter, hb, hrest]
    · simp only [hb, if_false] at h
      simp [List.filter, hb, ih hu.2 h]

/-! ## Lemmas on the canonical string -/

theorem digitChar_value : ∀ d, d < 10 → (Nat.digitChar d).toNat - 48 = d := by decide

theorem digitChar_isDigit : ∀ d, d < 10 → (Nat.digitChar d).isDigit = true := by decide

theorem toDigitsCore_spec (fuel : Nat) : ∀ (n : Nat) (acc : List Char), n < fuel →
    ∃ ds : List Char, Nat.toDigitsCore 10 fuel n acc = ds ++ acc ∧
      (∀ x, dec_value x ds = x * 10 ^ ds.length + n) ∧ ∀ c ∈ ds, c.isDigit = true := by
  induction fuel with
  | zero => intro n acc h; omega
  | succ fuel ih =>
    intro n acc h
    have hd : n % 10 < 10 := Nat.mod_lt _ (by decide)
    unfold Nat.toDigitsCore
    by_cases h0 : n / 10 = 0
    · refine ⟨[Nat.digitChar (n % 10)], by simp [h0], ?_, ?_⟩
      · intro x
        simp only [dec_value, List.foldl_cons, List.foldl_nil, digitChar_value _ hd,
          List.length_singleton, pow_one]
        omega
      · intro c hc
        rw [List.mem_singleton] at hc
        rw [hc]
        exact digitChar_isDigit _ hd
    · obtain ⟨ds, heq, hval, hdig⟩ := ih (n / 10) (Nat.digitChar (n % 10) :: acc) (by omega)
      refine ⟨ds ++ [Nat.digitChar (n % 10)], by simp [h0, heq], ?_, ?_⟩
      · intro x
        have hv := hval x
        simp only [dec_value] at hv
        simp only [dec_value, List.foldl_append, List.foldl_cons, List.foldl_nil, hv,
          digitChar_value _ hd, List.length_append, List.length_singleton, pow_succ]
        have := Nat.div_add_mod n 10
        nlinarith
      · intro c hc
        rcases List.mem_append.1 hc with hc | hc
        · exact hdig c hc
        · rw [List.mem_singleton] at hc
          rw [hc]
          exact digitChar_isDigit _ hd

theorem toDigits_value (n : Nat) : dec_value 0 (Nat.toDigits 10 n) = n := by
  obtain ⟨ds, heq, hval, _⟩ := toDigitsCore_spec (n + 1) n [] (Nat.lt_succ_self n)
  unfold Nat.toDigits
  rw [heq, List.append_nil, hval]
  simp

theorem toDigits_isDigit (n : Nat) : ∀ c ∈ Nat.toDigits 10 n, c.isDigit = true := by
  obtain ⟨ds, heq, _, hdig⟩ := toDigitsCore_spec (n + 1) n [] (Nat.lt_succ_self n)
  unfold Nat.toDigits
  rw [heq, List.append_nil]
  exact hdig

theorem toDigits_injective {n m : Nat} (h : Nat.toDigits 10 n = Nat.toDigits 10 m) : n = m := by
  have := congrArg (dec_value 0) h
  rwa [toDigits_value, toDigits_value] at this

/-- The conversion `%d` prints different integers differently. -/
theorem fmt_d_injective {t t1 : Int} (h : fmt_d t = fmt_d t1) : t = t1 := by
  cases t with
  | ofNat n =>
    cases t1 with
    | ofNat m => simp only [fmt_d] at h; rw [toDigits_injective h]
    | negSucc m =>
      simp only [fmt_d] at h
      have := toDigits_isDigit n '-' (by rw [h]; exact List.mem_cons_self _ _)
      exact absurd this (by decide)
  | negSucc n =>
    cases t1 with
    | ofNat m =>
      simp only [fmt_d] at h
      have := toDigits_isDigit m '-' (by rw [← h]; exact List.mem_cons_self _ _)
      exact absurd this (by decide)
    | negSucc m =>
      simp only [fmt_d, List.cons.injEq, true_and] at h
      have := toDigits_injective h
      have : n = m := by omega
      rw [this]

/-- The conversion `%d` prints no colon. -/
theorem fmt_d_no_colon (t : Int) : ':' ∉ fmt_d t := by
  intro hmem
  cases t with
  | ofNat n =>
    exact absurd (toDigits_isDigit n ':' hmem) (by decide)
  | negSucc n =>
    simp only [fmt_d, List.mem_cons] at hmem
    rcases hmem with h | h
    · exact absurd h (by decide)
    · exact absurd (toDigits_isDigit _ ':' h) (by decide)

/-- Two strings cut at the first occurrence of a character agree part by part. -/
theorem split_first {c : Char} : ∀ {a a1 r r1 : List Char}, c ∉ a → c ∉ a1 →
    a ++ c :: r = a1 ++ c :: r1 → a = a1 ∧ r = r1 := by
  intro a
  induction a with
  | nil =>
    intro a1 r r1 _ ha1 h
    cases a1 with
    | nil => simpa using h
    | cons y ys =>
      simp only [List.nil_append, List.cons_append, List.cons.injEq] at h
      exact absurd (by rw [h.1]; exact List.mem_cons_self _ _) ha1
  | cons x xs ih =>
    intro a1 r r1 ha ha1 h
    cases a1 with
    | nil =>
      simp only [List.nil_append, List.cons_append, List.cons.injEq] at h
      exact absurd (by rw [← h.1]; exact List.mem_cons_self _ _) ha
    | cons y ys =>
      simp only [List.cons_append, List.cons.injEq] at h
      obtain ⟨h1, h2⟩ := ih (fun hm => ha (List.mem_cons_of_mem _ hm))
        (fun hm => ha1 (List.mem_cons_of_mem _ hm)) h.2
      exact ⟨by rw [h.1, h1], h2⟩

/-- Two strings cut at the last occurrence of a character agree part by part. -/
theorem split_last {c : Char} {b b1 r r1 : List Char} (hr : c ∉ r) (hr1 : c ∉ r1)
    (h : b ++ c :: r = b1 ++ c :: r1) : b = b1 ∧ r = r1 := by
  have h2 := congrArg List.reverse h
  simp only [List.reverse_append, List.reverse_cons, List.append_assoc, List.singleton_append]
    at h2
  obtain ⟨hr2, hb2⟩ := split_first (by simpa using hr) (by simpa using hr1) h2
  exact ⟨List.reverse_injective hb2, List.reverse_injective hr2⟩

/-- With the same first string, the canonical string determines the second string and the
tag, whatever characters the strings hold. -/
theorem sprintf_s_s_d_inj_right {a b b1 : List Char} {t t1 : Int}
    (h : sprintf_s_s_d a b t = sprintf_s_s_d a b1 t1) : b = b1 ∧ t = t1 := by
  unfold sprintf_s_s_d at h
  have h1 := List.append_cancel_left h
  simp only [List.cons.injEq, true_and] at h1
  obtain ⟨hb, hd⟩ := split_last (fmt_d_no_colon t) (fmt_d_no_colon t1) h1
  exact ⟨hb, fmt_d_injective hd⟩

/-! ## Lemmas on the hexadecimal key -/

theorem X_digit_injective : ∀ x, x < 16 → ∀ y, y < 16 → X_digit x = X_digit y → x = y := by
  decide

theorem fmt_02X_injective {b b1 : Fin 256} (h : fmt_02X b = fmt_02X b1) : b = b1 := by
  simp only [fmt_02X, List.cons.injEq, and_true] at h
  have hb := b.isLt
  have hb1 := b1.isLt
  have h1 := X_digit_injective _ (by omega) _ (by omega) h.1
  have h2 := X_digit_injective _ (Nat.mod_lt _ (by decide)) _ (Nat.mod_lt _ (by decide)) h.2
  apply Fin.ext
  omega

theorem hexify_loop_succ (hashdata : List (Fin 256)) (n : Nat) :
    hexify_loop hashdata (n + 1)
      = (hexify_loop hashdata n).take (n * 2) ++ fmt_02X (hashdata.getD n 0) := by
  unfold hexify_loop
  rw [List.range_succ, List.foldl_append]
  rfl

/-- The loop of `hexify` over the first `n` bytes leaves a string of `2*n` characters whose
characters `2*i` and `2*i+1` are the two digits of byte `i`. -/
theorem hexify_loop_spec (hashdata : List (Fin 256)) (n : Nat) :
    (hexify_loop hashdata n).length = 2 * n ∧
    ∀ i, i < n →
      (hexify_loop hashdata n)[2 * i]? = some (X_digit ((hashdata.getD i 0).val / 16)) ∧
      (hexify_loop hashdata n)[2 * i + 1]? = some (X_digit ((hashdata.getD i 0).val % 16)) := by
  induction n with
  | zero => exact ⟨rfl, fun i hi => absurd hi (Nat.not_lt_zero i)⟩
  | succ n ih =>
    obtain ⟨hlen, hget⟩ := ih
    rw [hexify_loop_succ, List.take_of_length_le (by omega)]
    refine ⟨?_, ?_⟩
    · rw [List.length_append, hlen]
      simp only [fmt_02X, List.length_cons, List.length_nil]
      omega
    · intro i hi
      by_cases hin : i < n
      · rw [List.getElem?_append_left (by omega), List.getElem?_append_left (by omega)]
        exact hget i hin
      · have hi2 : i = n := by omega
        subst hi2
        rw [List.getElem?_append_right (by omega), List.getElem?_append_right (by omega)]
        have e0 : 2 * i - (hexify_loop hashdata i).length = 0 := by omega
        have e1 : 2 * i + 1 - (hexify_loop hashdata i).length = 1 := by omega
        rw [e0, e1]
        exact ⟨rfl, rfl⟩

/-- The loop of `hexify` writes different keys for different digests of twenty bytes. -/
theorem hexify_loop_injective {d d1 : List (Fin 256)}
    (hl : d.length = SHA_DIGEST_LENGTH) (hl1 : d1.length = SHA_DIGEST_LENGTH)
    (h : hexify_loop d SHA_DIGEST_LENGTH = hexify_loop d1 SHA_DIGEST_LENGTH) : d = d1 := by
  apply List.ext_getElem (hl.trans hl1.symm)
  intro i hi hi1
  have hlt : i < SHA_DIGEST_LENGTH := by omega
  have e := (hexify_loop_spec d SHA_DIGEST_LENGTH).2 i hlt
  have e1 := (hexify_loop_spec d1 SHA_DIGEST_LENGTH).2 i hlt
  rw [h] at e
  have a1 := Option.some.inj (e.1.symm.trans e1.1)
  have a2 := Option.some.inj (e.2.symm.trans e1.2)
  have hf : fmt_02X (d.getD i 0) = fmt_02X (d1.getD i 0) := by
    unfold fmt_02X
    rw [a1, a2]
  have := fmt_02X_injective hf
  rwa [List.getD_eq_getElem _ _ hi, List.getD_eq_getElem _ _ hi1] at this

/-- The key `hexify` writes when SHA1 is found and the digest of the canonical string is
`d`, twenty bytes long. -/
theorem hexify_of_digest {L : Libs} {username topic : List Char} {access : Int}
    {d : List (Fin 256)} (hfound : L.sha1_found = true)
    (hd : L.EVP_Digest (sprintf_s_s_d username topic access) = some d)
    (hl : d.length = SHA_DIGEST_LENGTH) (hex : List Char) :
    hexify L username topic access hex = hexify_loop d SHA_DIGEST_LENGTH := by
  have h20 : to_int SHA_DIGEST_LENGTH = (SHA_DIGEST_LENGTH : Int) := by decide
  unfold hexify sha_hash
  simp only [hfound, if_true, hd, hl, h20, ne_eq, not_true_eq_false, if_false]

/-- When the digest test passes, the key does not depend on what the buffer held. -/
theorem hexify_of_digest_ok {L : Libs} {username topic : List Char} {access : Int}
    (h : digest_ok L username topic access) (hex hex1 : List Char) :
    hexify L username topic access hex = hexify L username topic access hex1 := by
  unfold digest_ok at h
  unfold hexify
  simp [h]

/-- The key `hexify` writes when its test on the digest length passes and the digest of the
canonical string is `d`. -/
theorem hexify_of_digest_ok_eq {L : Libs} {username topic : List Char} {access : Int}
    {d : List (Fin 256)} (hok : digest_ok L username topic access)
    (hd : L.EVP_Digest (sprintf_s_s_d username topic access) = some d) (hex : List Char) :
    hexify L username topic access hex = hexify_loop d SHA_DIGEST_LENGTH := by
  unfold digest_ok at hok
  unfold hexify
  rw [if_neg (not_not.2 hok)]
  unfold sha_hash
  unfold sha_hash at hok
  cases hf : L.sha1_found with
  | false =>
    rw [hf] at hok
    simp only [Bool.false_eq_true, if_false] at hok
    exact absurd hok (by decide)
  | true => simp only [if_true, hd]

theorem X_digit_mem_hex_chars : ∀ x, x < 16 → X_digit x ∈ hex_chars := by decide

theorem hex_value_X_digit : ∀ x, x < 16 → hex_value (X_digit x) = x := by decide

theorem hexify_loop_hex_chars (hashdata : List (Fin 256)) (n : Nat) :
    ∀ c ∈ hexify_loop hashdata n, c ∈ hex_chars := by
  induction n with
  | zero => intro c hc; simp [hexify_loop] at hc
  | succ n ih =>
    intro c hc
    rw [hexify_loop_succ] at hc
    rcases List.mem_append.1 hc with h | h
    · exact ih c (List.mem_of_mem_take h)
    · have hb := (hashdata.getD n 0).isLt
      simp only [fmt_02X, List.mem_cons, List.mem_singleton, List.not_mem_nil, or_false] at h
      rcases h with h | h
      · rw [h]; exact X_digit_mem_hex_chars _ (by omega)
      · rw [h]; exact X_digit_mem_hex_chars _ (Nat.mod_lt _ (by decide))

/-! ## Lemmas on removal and on sequences of calls -/

theorem HASH_DEL_sublist (l : List maincache) (hex : List Char) :
    (HASH_DEL l hex).Sublist l := by
  induction l with
  | nil => exact List.Sublist.refl _
  | cons b rest ih =>
    unfold HASH_DEL
    by_cases hb : b.hex = hex
    · simp only [hb, if_true]
      exact List.sublist_cons_self _ _
    · simp only [hb, if_false]
      exact List.Sublist.cons₂ _ ih

/-- The removal takes out the node the lookup found and nothing else. -/
theorem HASH_DEL_split {l : List maincache} {hex : List Char} {a : maincache}
    (h : HASH_FIND_STR l hex = some a) :
    ∃ pre post, l = pre ++ a :: post ∧ (∀ e ∈ pre, e.hex ≠ hex) ∧
      HASH_DEL l hex = pre ++ post := by
  induction l with
  | nil => simp [HASH_FIND_STR] at h
  | cons b rest ih =>
    unfold HASH_FIND_STR at h
    unfold HASH_DEL
    by_cases hb : b.hex = hex
    · simp only [hb, if_true, Option.some.injEq] at h
      subst h
      exact ⟨[], rest, rfl, by simp, by simp [hb]⟩
    · simp only [hb, if_false] at h
      obtain ⟨pre, post, hl, hpre, hdel⟩ := ih h
      refine ⟨b :: pre, post, by rw [hl]; rfl, ?_, by simp [hb, hdel]⟩
      intro e he
      rcases List.mem_cons.1 he with he | he
      · rw [he]; exact hb
      · exact hpre e he

theorem find_and_expire_sublist (L : Libs) (cached : List maincache) (hex : List Char)
    (cacheseconds now : Int) :
    (find_and_expire L cached hex cacheseconds now).2.Sublist cached := by
  unfold find_and_expire
  cases HASH_FIND_STR cached hex with
  | none => exact List.Sublist.refl _
  | some a =>
    simp only
    split
    · exact HASH_DEL_sublist cached hex
    · exact List.Sublist.refl _

/-- The function `find_and_expire` keeps the keys of the table unique. -/
theorem find_and_expire_unique_keys (L : Libs) (cached : List maincache) (hex : List Char)
    (cacheseconds now : Int) (hu : unique_keys cached) :
    unique_keys (find_and_expire L cached hex cacheseconds now).2 := by
  unfold unique_keys at hu ⊢
  exact List.Nodup.sublist
    (List.Sublist.map _ (find_and_expire_sublist L cached hex cacheseconds now)) hu

theorem run_call_unique_keys (L : Libs) (cached : List maincache) (c : cache_call)
    (hu : unique_keys cached) : unique_keys (run_call L cached c) := by
  cases c with
  | record hex granted cacheseconds now =>
    exact create_update_unique_keys cached hex granted cacheseconds now hu
  | query hex cacheseconds now =>
    exact find_and_expire_unique_keys L cached hex cacheseconds now hu

theorem foldl_run_call_unique_keys (L : Libs) (calls : List cache_call) :
    ∀ cached : List maincache, unique_keys cached →
      unique_keys (calls.foldl (run_call L) cached) := by
  induction calls with
  | nil => intro cached hu; exact hu
  | cons c rest ih =>
    intro cached hu
    exact ih _ (run_call_unique_keys L cached c hu)

/-- With unique keys, a table holds at most one node of any key. -/
theorem unique_keys_filter_length {l : List maincache} (hu : unique_keys l) (key : List Char) :
    (l.filter (fun e => decide (e.hex = key))).length ≤ 1 := by
  cases hf : HASH_FIND_STR l key with
  | some a => rw [filter_key_of_find hu hf]; exact Nat.le_refl _
  | none =>
    have : l.filter (fun e => decide (e.hex = key)) = [] := by
      rw [List.filter_eq_nil_iff]
      intro e he
      simpa using (HASH_FIND_STR_eq_none.1 hf) e he
    rw [this]
    exact Nat.zero_le _

/-! ## Further lemmas on the key and the canonical string -/

/-- Tuples with the same canonical string get the same key when the digest test passes. -/
theorem hexify_congr {L : Libs} {u t u1 t1 : List Char} {a a1 : Int}
    (h : sprintf_s_s_d u1 t1 a1 = sprintf_s_s_d u t a) (hok : digest_ok L u t a)
    (hex hex1 : List Char) : hexify L u1 t1 a1 hex1 = hexify L u t a hex := by
  unfold digest_ok at hok
  unfold hexify
  rw [h]
  simp [hok]

/-- The conversion `%d` prints at most eleven characters for a 32-bit `int`. -/
theorem fmt_d_length {access : Int} (hlo : -2 ^ 31 ≤ access) (hhi : access < 2 ^ 31) :
    (fmt_d access).length ≤ 11 := by
  cases access with
  | ofNat n =>
    have hn : n < 10 ^ 10 := by
      have : (n : Int) < 2 ^ 31 := hhi
      omega
    have := Nat.toDigitsCore_length 10 (by decide) (n + 1) n 10 hn (by decide)
    simp only [fmt_d, Nat.toDigits]
    omega
  | negSucc n =>
    have hn : n + 1 < 10 ^ 10 := by
      have h1 : -2 ^ 31 ≤ Int.negSucc n := hlo
      rw [Int.negSucc_eq] at h1
      omega
    have := Nat.toDigitsCore_length 10 (by decide) (n + 1 + 1) (n + 1) 10 hn (by decide)
    simp only [fmt_d, Nat.toDigits, List.length_cons]
    omega

/-! ## The claims -/

/-- C1 (round trip). With the cache enabled, non-NULL strings and a digest that succeeds,
`acl_cache` at clock reading `t` followed by `acl_cache_q` of the same tuple at any reading
`t1 ≤ t + cacheseconds` returns the decision recorded; likewise `auth_cache` followed by
`auth_cache_q`. -/
theorem C1_round_trip (L : Libs) (ud : userdata) (t t1 : Int) (hex0 hex1 : List Char)
    (username topic password : List Char) (access granted : Int)
    (httl : 0 < ud.cacheseconds) (ht : t1 ≤ t + ud.cacheseconds) :
    (digest_ok L username topic access →
      (acl_cache_q L t1 hex1 (some username) (some topic) access
        (acl_cache L t hex0 (some username) (some topic) access granted ud)).1 = granted) ∧
    (digest_ok L username password 0 →
      (auth_cache_q L t1 hex1 (some username) (some password)
        (auth_cache L t hex0 (some username) (some password) granted ud)).1 = granted) := by
  have hn : ¬ ud.cacheseconds ≤ 0 := by omega
  constructor
  · intro hok
    simp only [acl_cache, acl_cache_q, hn, if_false, find_and_expire]
    rw [hexify_of_digest_ok hok hex1 hex0,
      HASH_FIND_STR_create_update _ _ _ _ _ (le_of_lt httl)]
    simp only [gt_iff_lt, not_lt.mpr ht, if_false]
  · intro hok
    simp only [auth_cache, auth_cache_q, hn, if_false, find_and_expire]
    rw [hexify_of_digest_ok hok hex1 hex0,
      HASH_FIND_STR_create_update _ _ _ _ _ (le_of_lt httl)]
    simp only [gt_iff_lt, not_lt.mpr ht, if_false]

/-- Witness of C1: a record at clock reading 100 with a TTL of 60 and a query at 160. -/
theorem C1_round_trip_witness :
    ((0 : Int) < 60 ∧ (160 : Int) ≤ 100 + 60) ∧
    (digest_ok sampleLibs ['a'] ['t'] 1 ∧ digest_ok sampleLibs ['a'] ['p'] 0) ∧
    (acl_cache_q sampleLibs 160 ['x'] (some ['a']) (some ['t']) 1
        (acl_cache sampleLibs 100 [] (some ['a']) (some ['t']) 1 7
          { cacheseconds := 60, aclcache := [], authcache := [] })).1 = 7 ∧
    (auth_cache_q sampleLibs 160 ['x'] (some ['a']) (some ['p'])
        (auth_cache sampleLibs 100 [] (some ['a']) (some ['p']) 7
          { cacheseconds := 60, aclcache := [], authcache := [] })).1 = 7 :=
  have h := C1_round_trip sampleLibs { cacheseconds := 60, aclcache := [], authcache := [] }
    100 160 [] ['x'] ['a'] ['t'] ['p'] 1 7 (by decide) (by decide)
  ⟨by decide, by decide, h.1 (by decide), h.2 (by decide)⟩

/-- C2 (expiry on read). If the table holds a node for the queried key, found by the lookup
with timestamp `a.seconds`, and `now > a.seconds + cacheseconds`, then `find_and_expire`
returns `MOSQ_ERR_UNKNOWN` and, the keys of the table being unique, no node of the resulting
table has that key; the same through `acl_cache_q` and `auth_cache_q` with the cache enabled,
for the key `hexify` leaves in the buffer. -/
theorem C2_expiry_on_read (L : Libs) (cached : List maincache) (key : List Char)
    (a : maincache) (cacheseconds now : Int)
    (hu : unique_keys cached) (hfind : HASH_FIND_STR cached key = some a)
    (hexp : now > a.seconds + cacheseconds) :
    ((find_and_expire L cached key cacheseconds now).1 = L.MOSQ_ERR_UNKNOWN ∧
      ∀ e ∈ (find_and_expire L cached key cacheseconds now).2, e.hex ≠ key) ∧
    (∀ (ud : userdata) (hex : List Char) (username topic : List Char) (access : Int),
      0 < ud.cacheseconds → ud.cacheseconds = cacheseconds → ud.aclcache = cached →
      hexify L username topic access hex = key →
      (acl_cache_q L now hex (some username) (some topic) access ud).1 = L.MOSQ_ERR_UNKNOWN ∧
      ∀ e ∈ (acl_cache_q L now hex (some username) (some topic) access ud).2.aclcache,
        e.hex ≠ key) ∧
    (∀ (ud : userdata) (hex : List Char) (username password : List Char),
      0 < ud.cacheseconds → ud.cacheseconds = cacheseconds → ud.authcache = cached →
      hexify L username password 0 hex = key →
      (auth_cache_q L now hex (some username) (some password) ud).1 = L.MOSQ_ERR_UNKNOWN ∧
      ∀ e ∈ (auth_cache_q L now hex (some username) (some password) ud).2.authcache,
        e.hex ≠ key) := by
  have hfe : find_and_expire L cached key cacheseconds now
      = (L.MOSQ_ERR_UNKNOWN, HASH_DEL cached key) := by
    simp only [find_and_expire, hfind, hexp, if_true]
  have hdel := HASH_DEL_hex key hu
  refine ⟨?_, ?_, ?_⟩
  · rw [hfe]; exact ⟨rfl, hdel⟩
  · intro ud hex username topic access hpos hc hcache hkey
    have hn : ¬ ud.cacheseconds ≤ 0 := by omega
    subst hc hcache
    simp only [acl_cache_q, hn, if_false, hkey, hfe]
    exact ⟨trivial, hdel⟩
  · intro ud hex username password hpos hc hcache hkey
    have hn : ¬ ud.cacheseconds ≤ 0 := by omega
    subst hc hcache
    simp only [auth_cache_q, hn, if_false, hkey, hfe]
    exact ⟨trivial, hdel⟩

/-- Witness of C2: the scenario of the specification, a TTL of one second, a record at clock
reading 100 and a query at 102. -/
theorem C2_expiry_on_read_witness :
    (unique_keys [{ hex := ['k'], granted := 7, seconds := 100 }] ∧
      HASH_FIND_STR [{ hex := ['k'], granted := 7, seconds := 100 }] ['k']
        = some { hex := ['k'], granted := 7, seconds := 100 } ∧
      (102 : Int) > 100 + 1) ∧
    (find_and_expire sampleLibs [{ hex := ['k'], granted := 7, seconds := 100 }] ['k'] 1 102).1
      = 13 ∧
    ∀ e ∈ (find_and_expire sampleLibs [{ hex := ['k'], granted := 7, seconds := 100 }]
        ['k'] 1 102).2, e.hex ≠ ['k'] :=
  ⟨by decide,
    (C2_expiry_on_read sampleLibs [{ hex := ['k'], granted := 7, seconds := 100 }] ['k']
      { hex := ['k'], granted := 7, seconds := 100 } 1 102
      (by decide) (by decide) (by decide)).1⟩

/-- C3, as the claim states it, fails: an empty string is not treated as missing. With the
empty user name, `acl_cache` stores a node and `acl_cache_q` returns the stored decision 7,
not `MOSQ_ERR_UNKNOWN` (13 in the sample setting). -/
theorem C3_empty_string_counterexample :
    acl_cache sampleLibs 100 [] (some []) (some ['t']) 1 7
        { cacheseconds := 60, aclcache := [], authcache := [] }
      ≠ { cacheseconds := 60, aclcache := [], authcache := [] } ∧
    (acl_cache_q sampleLibs 100 [] (some []) (some ['t']) 1
        (acl_cache sampleLibs 100 [] (some []) (some ['t']) 1 7
          { cacheseconds := 60, aclcache := [], authcache := [] })).1 = 7 ∧
    sampleLibs.MOSQ_ERR_UNKNOWN ≠ 7 := by
  decide

/-- C3, amended (missing-input guard). If either string argument is NULL, then, whatever the
TTL, the buffer content and the digest library, `acl_cache` and `auth_cache` leave the user
data unchanged and `acl_cache_q` and `auth_cache_q` return `MOSQ_ERR_UNKNOWN` and leave the
user data unchanged. -/
theorem C3_null_guard (L : Libs) (now : Int) (hex : List Char) (s : Option (List Char))
    (access granted : Int) (ud : userdata) :
    (acl_cache L now hex none s access granted ud = ud ∧
      acl_cache L now hex s none access granted ud = ud) ∧
    (auth_cache L now hex none s granted ud = ud ∧
      auth_cache L now hex s none granted ud = ud) ∧
    (acl_cache_q L now hex none s access ud = (L.MOSQ_ERR_UNKNOWN, ud) ∧
      acl_cache_q L now hex s none access ud = (L.MOSQ_ERR_UNKNOWN, ud)) ∧
    (auth_cache_q L now hex none s ud = (L.MOSQ_ERR_UNKNOWN, ud) ∧
      auth_cache_q L now hex s none ud = (L.MOSQ_ERR_UNKNOWN, ud)) := by
  refine ⟨⟨?_, ?_⟩, ⟨?_, ?_⟩, ⟨?_, ?_⟩, ⟨?_, ?_⟩⟩ <;>
    first
    | (simp only [acl_cache]; split <;> [rfl; (cases s <;> rfl)])
    | (simp only [auth_cache]; split <;> [rfl; (cases s <;> rfl)])
    | (simp only [acl_cache_q]; split <;> [rfl; (cases s <;> rfl)])
    | (simp only [auth_cache_q]; split <;> [rfl; (cases s <;> rfl)])

/-- C4, the code at the failing input: SHA1 is not found, the buffer `hex` holds the string
"junk" on entry. `acl_cache` stores a node under the key "junk", and `acl_cache_q` then
returns its decision 7 instead of `MOSQ_ERR_UNKNOWN` (13); `auth_cache` and `auth_cache_q`
do the same. -/
theorem C4_digest_failure_uses_stale_buffer :
    ¬ digest_ok noSha1 ['a'] ['t'] 1 ∧
    acl_cache noSha1 100 ['j', 'u', 'n', 'k'] (some ['a']) (some ['t']) 1 7
        { cacheseconds := 60, aclcache := [], authcache := [] }
      = { cacheseconds := 60,
          aclcache := [{ hex := ['j', 'u', 'n', 'k'], granted := 7, seconds := 100 }],
          authcache := [] } ∧
    (acl_cache_q noSha1 100 ['j', 'u', 'n', 'k'] (some ['b']) (some ['s']) 2
        { cacheseconds := 60,
          aclcache := [{ hex := ['j', 'u', 'n', 'k'], granted := 7, seconds := 100 }],
          authcache := [] }).1 = 7 ∧
    auth_cache noSha1 100 ['j', 'u', 'n', 'k'] (some ['a']) (some ['p']) 7
        { cacheseconds := 60, aclcache := [], authcache := [] }
      = { cacheseconds := 60, aclcache := [],
          authcache := [{ hex := ['j', 'u', 'n', 'k'], granted := 7, seconds := 100 }] } ∧
    (auth_cache_q noSha1 100 ['j', 'u', 'n', 'k'] (some ['b']) (some ['q'])
        { cacheseconds := 60, aclcache := [],
          authcache := [{ hex := ['j', 'u', 'n', 'k'], granted := 7, seconds := 100 }] }).1 = 7 ∧
    noSha1.MOSQ_ERR_UNKNOWN ≠ 7 := by
  decide

/-- C5 (disabled cache). With `cacheseconds ≤ 0`, for every input, NULL strings included,
`acl_cache` and `auth_cache` return the user data unchanged (both tables), and `acl_cache_q`
and `auth_cache_q` return `MOSQ_ERR_UNKNOWN` and the user data unchanged, whatever the tables
hold. -/
theorem C5_disabled_cache (L : Libs) (now : Int) (hex : List Char)
    (username topic : Option (List Char)) (access granted : Int) (ud : userdata)
    (h : ud.cacheseconds ≤ 0) :
    acl_cache L now hex username topic access granted ud = ud ∧
    auth_cache L now hex username topic granted ud = ud ∧
    acl_cache_q L now hex username topic access ud = (L.MOSQ_ERR_UNKNOWN, ud) ∧
    auth_cache_q L now hex username topic ud = (L.MOSQ_ERR_UNKNOWN, ud) := by
  simp [acl_cache, auth_cache, acl_cache_q, auth_cache_q, h]

/-- Witness of C5: a TTL of 0 and a node for the queried key in each table. -/
theorem C5_disabled_cache_witness :
    (0 : Int) ≤ 0 ∧
    (acl_cache_q sampleLibs 100 [] (some ['a']) (some ['t']) 1
        { cacheseconds := 0,
          aclcache := [{ hex := hexify sampleLibs ['a'] ['t'] 1 [], granted := 7,
                         seconds := 100 }],
          authcache := [] }).1 = sampleLibs.MOSQ_ERR_UNKNOWN :=
  ⟨by decide,
    congrArg Prod.fst (C5_disabled_cache sampleLibs 100 [] (some ['a']) (some ['t']) 1 0
      { cacheseconds := 0,
        aclcache := [{ hex := hexify sampleLibs ['a'] ['t'] 1 [], granted := 7,
                       seconds := 100 }],
        authcache := [] } (by decide)).2.2.1⟩

/-- C6 (freshness). A value other than the initial `MOSQ_ERR_UNKNOWN` returned by
`find_and_expire` is the decision of the node `a` found for the key, and that node satisfies
`now ≤ a.seconds + cacheseconds`; a node found with `now > a.seconds + cacheseconds` makes the
function return `MOSQ_ERR_UNKNOWN`, whatever decision it holds. The same holds for
`acl_cache_q` and `auth_cache_q` with the cache enabled. -/
theorem C6_freshness (L : Libs) (now : Int) (hex : List Char) (username topic : List Char)
    (access : Int) (ud : userdata) (httl : 0 < ud.cacheseconds) :
    (∀ (cached : List maincache) (key : List Char),
      ((find_and_expire L cached key ud.cacheseconds now).1 ≠ L.MOSQ_ERR_UNKNOWN →
        ∃ a, HASH_FIND_STR cached key = some a ∧
          (find_and_expire L cached key ud.cacheseconds now).1 = a.granted ∧
          now ≤ a.seconds + ud.cacheseconds) ∧
      (∀ a, HASH_FIND_STR cached key = some a → now > a.seconds + ud.cacheseconds →
        (find_and_expire L cached key ud.cacheseconds now).1 = L.MOSQ_ERR_UNKNOWN)) ∧
    ((acl_cache_q L now hex (some username) (some topic) access ud).1 ≠ L.MOSQ_ERR_UNKNOWN →
      ∃ a ∈ ud.aclcache, a.hex = hexify L username topic access hex ∧
        (acl_cache_q L now hex (some username) (some topic) access ud).1 = a.granted ∧
        now ≤ a.seconds + ud.cacheseconds) ∧
    ((auth_cache_q L now hex (some username) (some topic) ud).1 ≠ L.MOSQ_ERR_UNKNOWN →
      ∃ a ∈ ud.authcache, a.hex = hexify L username topic 0 hex ∧
        (auth_cache_q L now hex (some username) (some topic) ud).1 = a.granted ∧
        now ≤ a.seconds + ud.cacheseconds) := by
  have hn : ¬ ud.cacheseconds ≤ 0 := by omega
  have key : ∀ (cached : List maincache) (key : List Char),
      (find_and_expire L cached key ud.cacheseconds now).1 ≠ L.MOSQ_ERR_UNKNOWN →
        ∃ a, HASH_FIND_STR cached key = some a ∧
          (find_and_expire L cached key ud.cacheseconds now).1 = a.granted ∧
          now ≤ a.seconds + ud.cacheseconds := by
    intro cached key hne
    unfold find_and_expire at hne ⊢
    cases hf : HASH_FIND_STR cached key with
    | none => simp [hf] at hne
    | some a =>
      by_cases hexp : now > a.seconds + ud.cacheseconds
      · simp [hf, hexp] at hne
      · exact ⟨a, rfl, by simp [hexp], not_lt.1 hexp⟩
  refine ⟨fun cached k => ⟨key cached k, ?_⟩, ?_, ?_⟩
  · intro a hf hexp
    simp [find_and_expire, hf, hexp]
  · intro hne
    simp only [acl_cache_q, hn, if_false] at hne ⊢
    obtain ⟨a, hf, hg, hfresh⟩ := key _ _ hne
    exact ⟨a, HASH_FIND_STR_mem hf, HASH_FIND_STR_hex hf, hg, hfresh⟩
  · intro hne
    simp only [auth_cache_q, hn, if_false] at hne ⊢
    obtain ⟨a, hf, hg, hfresh⟩ := key _ _ hne
    exact ⟨a, HASH_FIND_STR_mem hf, HASH_FIND_STR_hex hf, hg, hfresh⟩

/-- Witness of C6: with a TTL of 60, a node recorded at 100 and still in the table is not
the source of the answer at clock reading 161, and is at 160. -/
theorem C6_freshness_witness :
    (0 : Int) < 60 ∧
    (find_and_expire sampleLibs [{ hex := ['k'], granted := 7, seconds := 100 }] ['k'] 60 161).1
      = sampleLibs.MOSQ_ERR_UNKNOWN ∧
    (find_and_expire sampleLibs [{ hex := ['k'], granted := 7, seconds := 100 }] ['k'] 60 160).1
      = 7 :=
  ⟨by decide,
    ((C6_freshness sampleLibs 161 [] ['a'] ['t'] 1
      { cacheseconds := 60, aclcache := [], authcache := [] } (by decide)).1
        [{ hex := ['k'], granted := 7, seconds := 100 }] ['k']).2
        { hex := ['k'], granted := 7, seconds := 100 } (by decide) (by decide),
    by decide⟩

/-- C7 (sweep on write). After `create_update` for key `hex` at clock reading `now`, the nodes
of the other keys are, in order, those that were there before and satisfy
`now ≤ seconds + cacheseconds`, each with its decision and timestamp unchanged; so a node of
another key is present afterwards exactly if it was present before and is not expired; and no
node at all with `now > seconds + cacheseconds` is left. -/
theorem C7_sweep_on_write (cached : List maincache) (hex : List Char)
    (granted cacheseconds now : Int) :
    (create_update cached hex granted cacheseconds now).filter (fun e => decide (e.hex ≠ hex))
      = (cached.filter (fun e => decide (e.hex ≠ hex))).filter
          (fun a => decide (now ≤ a.seconds + cacheseconds)) ∧
    (∀ e : maincache, e.hex ≠ hex →
      (e ∈ create_update cached hex granted cacheseconds now ↔
        e ∈ cached ∧ now ≤ e.seconds + cacheseconds)) ∧
    (∀ e ∈ create_update cached hex granted cacheseconds now,
      now ≤ e.seconds + cacheseconds) := by
  have hp : (fun a : maincache => !decide (now > a.seconds + cacheseconds))
      = (fun a : maincache => decide (now ≤ a.seconds + cacheseconds)) := by
    funext a
    by_cases h : now ≤ a.seconds + cacheseconds
    · simp [h, not_lt.2 h]
    · simp [h, not_le.1 h]
  have heq := create_update_filter_other cached hex granted cacheseconds now
  rw [hp] at heq
  refine ⟨heq, ?_, ?_⟩
  · intro e he
    have h1 : e ∈ create_update cached hex granted cacheseconds now ↔
        e ∈ (create_update cached hex granted cacheseconds now).filter
          (fun e => decide (e.hex ≠ hex)) := by
      simp [List.mem_filter, he]
    rw [h1, heq]
    simp [List.mem_filter, he]
  · intro e he
    unfold create_update at he
    have := (List.mem_filter.1 he).2
    simpa using this

/-- C8 (overwrite, not duplication). Starting from a table with unique keys and with
`cacheseconds > 0`, after `create_update` of a key with decision `d1` at clock reading `t1`
and again with `d2` at `t2`, the table holds exactly one node of that key, with decision `d2`
(and timestamp `t2`), and `find_and_expire` of the key at `t2` returns `d2` and leaves the
table as it is. -/
theorem C8_overwrite (L : Libs) (cached : List maincache) (hex : List Char)
    (d1 d2 cacheseconds t1 t2 : Int) (hu : unique_keys cached) (httl : 0 < cacheseconds) :
    (create_update (create_update cached hex d1 cacheseconds t1) hex d2 cacheseconds t2).filter
        (fun e => decide (e.hex = hex)) = [{ hex := hex, granted := d2, seconds := t2 }] ∧
    find_and_expire L
        (create_update (create_update cached hex d1 cacheseconds t1) hex d2 cacheseconds t2)
        hex cacheseconds t2
      = (d2, create_update (create_update cached hex d1 cacheseconds t1) hex d2 cacheseconds t2)
    := by
  have hfind := HASH_FIND_STR_create_update
    (create_update cached hex d1 cacheseconds t1) hex d2 cacheseconds t2 (le_of_lt httl)
  have hu2 := create_update_unique_keys _ hex d2 cacheseconds t2
    (create_update_unique_keys cached hex d1 cacheseconds t1 hu)
  refine ⟨filter_key_of_find hu2 hfind, ?_⟩
  unfold find_and_expire
  rw [hfind]
  have : ¬ t2 > t2 + cacheseconds := by omega
  simp [this]

/-- Witness of C8: decision 1 at clock reading 100, then decision 2 at 130, on a table that
already holds a node of the key and one of another key. -/
theorem C8_overwrite_witness :
    (unique_keys [{ hex := ['k'], granted := 0, seconds := 90 },
                  { hex := ['m'], granted := 5, seconds := 95 }] ∧ (0 : Int) < 60) ∧
    create_update (create_update [{ hex := ['k'], granted := 0, seconds := 90 },
        { hex := ['m'], granted := 5, seconds := 95 }] ['k'] 1 60 100) ['k'] 2 60 130
      = [{ hex := ['k'], granted := 2, seconds := 130 },
         { hex := ['m'], granted := 5, seconds := 95 }] ∧
    (find_and_expire sampleLibs
        (create_update (create_update [{ hex := ['k'], granted := 0, seconds := 90 },
          { hex := ['m'], granted := 5, seconds := 95 }] ['k'] 1 60 100) ['k'] 2 60 130)
        ['k'] 60 130).1 = 2 :=
  ⟨by decide, by decide,
    congrArg Prod.fst (C8_overwrite sampleLibs [{ hex := ['k'], granted := 0, seconds := 90 },
      { hex := ['m'], granted := 5, seconds := 95 }] ['k'] 1 2 60 100 130
      (by decide) (by decide)).2⟩

/-- C9 (distinctness and mode sensitivity). For one identity `a`, if the pairs (resource,
access mode) differ then the canonical strings `hexify` builds differ, whether or not the
resources contain a colon. Hence, when SHA1 is found, yields twenty bytes for both strings
and is collision-free on them (different strings, different digests), `acl_cache` for the
first tuple on an empty authorization table followed by `acl_cache_q` for the second one
returns `MOSQ_ERR_UNKNOWN`. -/
theorem C9_distinctness (L : Libs) (a b b1 : List Char) (t t1 : Int)
    (hne : (b, t) ≠ (b1, t1)) :
    sprintf_s_s_d a b t ≠ sprintf_s_s_d a b1 t1 ∧
    ∀ (d d1 : List (Fin 256)) (now now1 granted : Int) (hex hex1 : List Char) (ud : userdata),
      L.sha1_found = true →
      L.EVP_Digest (sprintf_s_s_d a b t) = some d →
      L.EVP_Digest (sprintf_s_s_d a b1 t1) = some d1 →
      d.length = SHA_DIGEST_LENGTH → d1.length = SHA_DIGEST_LENGTH →
      (sprintf_s_s_d a b t ≠ sprintf_s_s_d a b1 t1 → d ≠ d1) →
      ud.aclcache = [] →
      (acl_cache_q L now1 hex1 (some a) (some b1) t1
        (acl_cache L now hex (some a) (some b) t granted ud)).1 = L.MOSQ_ERR_UNKNOWN := by
  have hstr : sprintf_s_s_d a b t ≠ sprintf_s_s_d a b1 t1 := by
    intro h
    obtain ⟨hb, ht⟩ := sprintf_s_s_d_inj_right h
    exact hne (by rw [hb, ht])
  refine ⟨hstr, ?_⟩
  intro d d1 now now1 granted hex hex1 ud hfound hd hd1 hl hl1 hcf hempty
  by_cases httl : ud.cacheseconds ≤ 0
  · simp [acl_cache, acl_cache_q, httl]
  · have hkey : hexify L a b t hex ≠ hexify L a b1 t1 hex1 := by
      rw [hexify_of_digest hfound hd hl, hexify_of_digest hfound hd1 hl1]
      exact fun h => hcf hstr (hexify_loop_injective hl hl1 h)
    have hnone : HASH_FIND_STR
        (create_update [] (hexify L a b t hex) granted ud.cacheseconds now)
        (hexify L a b1 t1 hex1) = none := by
      rw [HASH_FIND_STR_eq_none]
      intro e he
      simp only [create_update, HASH_FIND_STR, HASH_ADD_STR, List.nil_append] at he
      have := List.mem_singleton.1 (List.mem_of_mem_filter he)
      rw [this]
      exact hkey
    simp only [acl_cache, acl_cache_q, httl, if_false, hempty, find_and_expire, hnone]

/-- Witness of C9: the scenario of the specification, resources `t/a` and `t/b` with the same
identity and access mode. -/
theorem C9_distinctness_witness :
    ((['t', '/', 'a'], (1 : Int)) ≠ (['t', '/', 'b'], (1 : Int))) ∧
    (acl_cache_q sampleLibs 100 [] (some ['a']) (some ['t', '/', 'b']) 1
      (acl_cache sampleLibs 100 [] (some ['a']) (some ['t', '/', 'a']) 1 7
        { cacheseconds := 60, aclcache := [], authcache := [] })).1
      = sampleLibs.MOSQ_ERR_UNKNOWN :=
  ⟨by decide,
    (C9_distinctness sampleLibs ['a'] ['t', '/', 'a'] ['t', '/', 'b'] 1 1 (by decide)).2
      ((List.range 20).map (fun i => Fin.ofNat
        (((sprintf_s_s_d ['a'] ['t', '/', 'a'] 1).getD i 'z').toNat + 7)))
      ((List.range 20).map (fun i => Fin.ofNat
        (((sprintf_s_s_d ['a'] ['t', '/', 'b'] 1).getD i 'z').toNat + 7)))
      100 100 7 [] [] { cacheseconds := 60, aclcache := [], authcache := [] }
      rfl (by decide) (by decide) (by decide) (by decide) (fun _ => by decide) rfl⟩

/-- C10 (canonicalisation is injective on separator-free strings). For strings `a`, `b`, `a1`,
`b1` without a colon and integer tags `t`, `t1`: if the format `%s:%s:%d` produces the same
characters for `(a, b, t)` and for `(a1, b1, t1)`, then `a = a1`, `b = b1` and `t = t1`. -/
theorem C10_canonical_injective (a b a1 b1 : List Char) (t t1 : Int)
    (ha : ':' ∉ a) (hb : ':' ∉ b) (ha1 : ':' ∉ a1) (hb1 : ':' ∉ b1)
    (h : sprintf_s_s_d a b t = sprintf_s_s_d a1 b1 t1) : a = a1 ∧ b = b1 ∧ t = t1 := by
  have h1 : a = a1 := (split_first ha ha1 h).1
  subst h1
  have hb2 : b ++ ':' :: fmt_d t = b1 ++ ':' :: fmt_d t1 := (split_first ha ha1 h).2
  obtain ⟨hbb, hd⟩ := split_first hb hb1 hb2
  exact ⟨rfl, hbb, fmt_d_injective hd⟩

/-- Witness of C10: the tuple `("u", "t", -12)` against itself, canonical string `u:t:-12`. -/
theorem C10_canonical_injective_witness :
    ((':' ∉ ['u'] ∧ ':' ∉ ['t']) ∧
      sprintf_s_s_d ['u'] ['t'] (-12) = ['u', ':', 't', ':', '-', '1', '2']) ∧
    (['u'] = ['u'] ∧ ['t'] = ['t'] ∧ (-12 : Int) = -12) :=
  ⟨by decide,
    C10_canonical_injective ['u'] ['t'] ['u'] ['t'] (-12) (-12)
      (by decide) (by decide) (by decide) (by decide) rfl⟩

/-- C11 (key format). When the digest succeeds (SHA1 yields the bytes `d` and the test of
`hexify` on the length passes), the key `hexify` leaves in the buffer is exactly 40 characters
long, each of them one of `0`-`9`, `A`-`F`, and for `i` in `0..19` the characters `2*i` and
`2*i+1` are the high and the low hexadecimal digit of byte `i` of the digest: read as
hexadecimal they give back the byte. -/
theorem C11_key_format (L : Libs) (username topic : List Char) (access : Int)
    (hex : List Char) (d : List (Fin 256))
    (hok : digest_ok L username topic access)
    (hd : L.EVP_Digest (sprintf_s_s_d username topic access) = some d) :
    (hexify L username topic access hex).length = 40 ∧
    (∀ c ∈ hexify L username topic access hex, c ∈ hex_chars) ∧
    ∀ i, i < 20 →
      (hexify L username topic access hex)[2 * i]?
        = some (X_digit ((d.getD i 0).val / 16)) ∧
      (hexify L username topic access hex)[2 * i + 1]?
        = some (X_digit ((d.getD i 0).val % 16)) ∧
      hex_value (X_digit ((d.getD i 0).val / 16)) * 16
        + hex_value (X_digit ((d.getD i 0).val % 16)) = (d.getD i 0).val := by
  rw [hexify_of_digest_ok_eq hok hd]
  obtain ⟨hlen, hget⟩ := hexify_loop_spec d SHA_DIGEST_LENGTH
  refine ⟨hlen, hexify_loop_hex_chars d SHA_DIGEST_LENGTH, ?_⟩
  intro i hi
  have hb := (d.getD i 0).isLt
  refine ⟨(hget i hi).1, (hget i hi).2, ?_⟩
  rw [hex_value_X_digit _ (by omega), hex_value_X_digit _ (Nat.mod_lt _ (by decide))]
  omega

/-- Witness of C11: the key of the tuple `("a", "t", 1)` under the sample digest, whose
first byte is 102 (`0x66`). -/
theorem C11_key_format_witness :
    (digest_ok sampleLibs ['a'] ['t'] 1 ∧
      ((sampleLibs.EVP_Digest (sprintf_s_s_d ['a'] ['t'] 1)).getD []).getD 0 0 = 102 ∧
      (hexify sampleLibs ['a'] ['t'] 1 ['x']).take 4 = ['6', '6', '3', 'F']) ∧
    (hexify sampleLibs ['a'] ['t'] 1 ['x']).length = 40 ∧
    (∀ c ∈ hexify sampleLibs ['a'] ['t'] 1 ['x'], c ∈ hex_chars) :=
  have h := C11_key_format sampleLibs ['a'] ['t'] 1 ['x']
    ((List.range 20).map (fun i => Fin.ofNat
      (((sprintf_s_s_d ['a'] ['t'] 1).getD i 'z').toNat + 5)))
    (by decide) (by decide)
  ⟨by decide, h.1, h.2.1⟩

/-- C12 (query frame). For every table, key, TTL and clock reading, the table after
`find_and_expire` is a sublist of the table before: no node is added and no node has its
decision or timestamp changed. When the key is not present, or when the node found is not
expired and its decision is returned, the table is left exactly as it was; when the node found
is expired, the table afterwards is the table before with that one node taken out. -/
theorem C12_query_frame (L : Libs) (cached : List maincache) (key : List Char)
    (cacheseconds now : Int) :
    (find_and_expire L cached key cacheseconds now).2.Sublist cached ∧
    (HASH_FIND_STR cached key = none →
      find_and_expire L cached key cacheseconds now = (L.MOSQ_ERR_UNKNOWN, cached)) ∧
    (∀ a, HASH_FIND_STR cached key = some a → ¬ now > a.seconds + cacheseconds →
      find_and_expire L cached key cacheseconds now = (a.granted, cached)) ∧
    (∀ a, HASH_FIND_STR cached key = some a → now > a.seconds + cacheseconds →
      ∃ pre post, cached = pre ++ a :: post ∧ (∀ e ∈ pre, e.hex ≠ key) ∧
        find_and_expire L cached key cacheseconds now = (L.MOSQ_ERR_UNKNOWN, pre ++ post)) := by
  refine ⟨find_and_expire_sublist L cached key cacheseconds now, ?_, ?_, ?_⟩
  · intro hf
    simp only [find_and_expire, hf]
  · intro a hf hfresh
    simp only [find_and_expire, hf, hfresh, if_false]
  · intro a hf hexp
    obtain ⟨pre, post, hl, hpre, hdel⟩ := HASH_DEL_split hf
    refine ⟨pre, post, hl, hpre, ?_⟩
    simp only [find_and_expire, hf, hexp, if_true, hdel]

/-- C13 (separate storage). The functions `acl_cache` and `acl_cache_q` leave the
authentication table as it is, and `auth_cache` and `auth_cache_q` leave the authorization
table as it is. In particular, `auth_cache(u, p, d)` on empty tables followed by
`acl_cache_q(u, p, 0)` returns `MOSQ_ERR_UNKNOWN`, although, with the cache enabled and the
digest succeeding, the key that `acl_cache_q` computes for `(u, p, 0)` is then present in the
authentication table with decision `d`. -/
theorem C13_separate_storage (L : Libs) (now now1 : Int) (hex hex1 : List Char)
    (username topic : Option (List Char)) (access granted : Int) (ud : userdata) :
    ((acl_cache L now hex username topic access granted ud).authcache = ud.authcache ∧
      (acl_cache_q L now hex username topic access ud).2.authcache = ud.authcache) ∧
    ((auth_cache L now hex username topic granted ud).aclcache = ud.aclcache ∧
      (auth_cache_q L now hex username topic ud).2.aclcache = ud.aclcache) ∧
    (∀ (u p : List Char) (cacheseconds : Int),
      (acl_cache_q L now1 hex1 (some u) (some p) 0
        (auth_cache L now hex (some u) (some p) granted
          { cacheseconds := cacheseconds, aclcache := [], authcache := [] })).1
        = L.MOSQ_ERR_UNKNOWN ∧
      (0 < cacheseconds → digest_ok L u p 0 →
        HASH_FIND_STR
          (auth_cache L now hex (some u) (some p) granted
            { cacheseconds := cacheseconds, aclcache := [], authcache := [] }).authcache
          (hexify L u p 0 hex1)
        = some { hex := hexify L u p 0 hex1, granted := granted, seconds := now })) := by
  refine ⟨⟨?_, ?_⟩, ⟨?_, ?_⟩, ?_⟩
  · unfold acl_cache
    split
    · rfl
    · split <;> rfl
  · unfold acl_cache_q
    split
    · rfl
    · split <;> rfl
  · unfold auth_cache
    split
    · rfl
    · split <;> rfl
  · unfold auth_cache_q
    split
    · rfl
    · split <;> rfl
  · intro u p cacheseconds
    by_cases httl : cacheseconds ≤ 0
    · refine ⟨by simp [auth_cache, acl_cache_q, httl], fun h => absurd h (by omega)⟩
    · refine ⟨by simp [auth_cache, acl_cache_q, httl, find_and_expire, HASH_FIND_STR], ?_⟩
      intro hpos hok
      simp only [auth_cache, httl, if_false]
      rw [hexify_of_digest_ok hok hex hex1]
      exact HASH_FIND_STR_create_update _ _ _ _ _ (le_of_lt hpos)

/-- C14 (key uniqueness invariant). Starting from the empty table, after any sequence of
`create_update` and `find_and_expire` calls, with any keys, decisions, TTL values and clock
readings, the keys of the table are pairwise different: for every key the table holds at most
one node. -/
theorem C14_key_uniqueness (L : Libs) (calls : List cache_call) :
    unique_keys (run_calls L calls) ∧
    ∀ key : List Char,
      ((run_calls L calls).filter (fun e => decide (e.hex = key))).length ≤ 1 := by
  have hu : unique_keys (run_calls L calls) :=
    foldl_run_call_unique_keys L calls [] (by simp [unique_keys])
  exact ⟨hu, unique_keys_filter_length hu⟩

/-- C15 (timestamp refresh on update). With `cacheseconds > 0` and clock readings
`t1 ≤ t2 ≤ t1 + cacheseconds`, after `create_update` of a key with `d1` at `t1` the node of the
key has timestamp `t1`, and after `create_update` of the key with `d2` at `t2` it has
timestamp `t2` and decision `d2`; so `find_and_expire` at any `t3` with
`t1 + cacheseconds < t3 ≤ t2 + cacheseconds` returns `d2` and leaves the table as it is,
where without the second call it would have returned `MOSQ_ERR_UNKNOWN`. -/
theorem C15_timestamp_refresh (L : Libs) (cached : List maincache) (key : List Char)
    (d1 d2 cacheseconds t1 t2 t3 : Int) (httl : 0 < cacheseconds)
    (_h12 : t1 ≤ t2) (_h21 : t2 ≤ t1 + cacheseconds)
    (h13 : t1 + cacheseconds < t3) (h32 : t3 ≤ t2 + cacheseconds) :
    HASH_FIND_STR (create_update cached key d1 cacheseconds t1) key
      = some { hex := key, granted := d1, seconds := t1 } ∧
    HASH_FIND_STR
        (create_update (create_update cached key d1 cacheseconds t1) key d2 cacheseconds t2) key
      = some { hex := key, granted := d2, seconds := t2 } ∧
    find_and_expire L
        (create_update (create_update cached key d1 cacheseconds t1) key d2 cacheseconds t2)
        key cacheseconds t3
      = (d2, create_update (create_update cached key d1 cacheseconds t1) key d2 cacheseconds t2)
      ∧
    (find_and_expire L (create_update cached key d1 cacheseconds t1) key cacheseconds t3).1
      = L.MOSQ_ERR_UNKNOWN := by
  have hc1 := HASH_FIND_STR_create_update cached key d1 cacheseconds t1 (le_of_lt httl)
  have hc2 := HASH_FIND_STR_create_update
    (create_update cached key d1 cacheseconds t1) key d2 cacheseconds t2 (le_of_lt httl)
  refine ⟨hc1, hc2, ?_, ?_⟩
  · unfold find_and_expire
    rw [hc2]
    simp only [gt_iff_lt, not_lt.2 h32, if_false]
  · unfold find_and_expire
    rw [hc1]
    simp only [gt_iff_lt, h13, if_true]

/-- Witness of C15: a TTL of 60, records at clock readings 100 and 130, a query at 170. -/
theorem C15_timestamp_refresh_witness :
    ((0 : Int) < 60 ∧ (100 : Int) ≤ 130 ∧ (130 : Int) ≤ 100 + 60 ∧ (100 : Int) + 60 < 170 ∧
      (170 : Int) ≤ 130 + 60) ∧
    (find_and_expire sampleLibs (create_update (create_update [] ['k'] 1 60 100) ['k'] 2 60 130)
      ['k'] 60 170).1 = 2 :=
  ⟨by decide,
    congrArg Prod.fst (C15_timestamp_refresh sampleLibs [] ['k'] 1 2 60 100 130 170
      (by decide) (by decide) (by decide) (by decide) (by decide)).2.2.1⟩

/-- C16 (separator ambiguity). The distinct tuples `("a:b", "c", 1)` and `("a", "b:c", 1)`
have the same canonical string `a:b:c:1`; so, with the cache enabled and the digest
succeeding, `acl_cache` for the first tuple followed at the same clock reading by
`acl_cache_q` for the second one returns the decision recorded for the first. -/
theorem C16_separator_ambiguity (L : Libs) (now : Int) (hex hex1 : List Char) (granted : Int)
    (ud : userdata) (httl : 0 < ud.cacheseconds)
    (hok : digest_ok L ['a', ':', 'b'] ['c'] 1) :
    ((['a', ':', 'b'], ['c'], (1 : Int)) ≠ (['a'], ['b', ':', 'c'], (1 : Int))) ∧
    sprintf_s_s_d ['a', ':', 'b'] ['c'] 1 = sprintf_s_s_d ['a'] ['b', ':', 'c'] 1 ∧
    (acl_cache_q L now hex1 (some ['a']) (some ['b', ':', 'c']) 1
      (acl_cache L now hex (some ['a', ':', 'b']) (some ['c']) 1 granted ud)).1 = granted := by
  have hstr : sprintf_s_s_d ['a'] ['b', ':', 'c'] 1 = sprintf_s_s_d ['a', ':', 'b'] ['c'] 1 :=
    by decide
  have hn : ¬ ud.cacheseconds ≤ 0 := by omega
  refine ⟨by decide, hstr.symm, ?_⟩
  simp only [acl_cache, acl_cache_q, hn, if_false, find_and_expire]
  rw [hexify_congr hstr hok hex hex1,
    HASH_FIND_STR_create_update _ _ _ _ _ (le_of_lt httl)]
  have : ¬ now > now + ud.cacheseconds := by omega
  simp only [this, if_false]

/-- Witness of C16: decision 7 recorded for `("a:b", "c", 1)` and returned for
`("a", "b:c", 1)`, where `MOSQ_ERR_UNKNOWN` is 13. -/
theorem C16_separator_ambiguity_witness :
    ((0 : Int) < 60 ∧ digest_ok sampleLibs ['a', ':', 'b'] ['c'] 1) ∧
    (acl_cache_q sampleLibs 100 [] (some ['a']) (some ['b', ':', 'c']) 1
      (acl_cache sampleLibs 100 [] (some ['a', ':', 'b']) (some ['c']) 1 7
        { cacheseconds := 60, aclcache := [], authcache := [] })).1 = 7 ∧
    sampleLibs.MOSQ_ERR_UNKNOWN ≠ 7 :=
  ⟨by decide,
    (C16_separator_ambiguity sampleLibs 100 [] [] 7
      { cacheseconds := 60, aclcache := [], authcache := [] } (by decide) (by decide)).2.2,
    by decide⟩

/-- C17 (the canonical buffer is large enough). For all strings `username` and `topic` and
every 32-bit signed `access`, the string that the format `%s:%s:%d` produces, with its
terminator, takes at most `strlen(username) + strlen(topic) + 20` bytes, the size `hexify`
allocates (it takes at most 14 bytes more than the two strings). -/
theorem C17_buffer_large_enough (username topic : List Char) (access : Int)
    (hlo : -2 ^ 31 ≤ access) (hhi : access < 2 ^ 31) :
    (sprintf_s_s_d username topic access).length + 1 ≤ username.length + topic.length + 20 ∧
    (sprintf_s_s_d username topic access).length + 1 ≤ username.length + topic.length + 14 := by
  have h := fmt_d_length hlo hhi
  simp only [sprintf_s_s_d, List.length_append, List.length_cons]
  omega

/-- Witness of C17: the most negative `int`, whose eleven characters are the longest `%d`
prints. -/
theorem C17_buffer_large_enough_witness :
    ((-2 ^ 31 : Int) ≤ -2147483648 ∧ (-2147483648 : Int) < 2 ^ 31) ∧
    (sprintf_s_s_d ['u'] ['t'] (-2147483648)).length + 1 ≤ 1 + 1 + 20 :=
  ⟨by decide,
    (C17_buffer_large_enough ['u'] ['t'] (-2147483648) (by decide) (by decide)).1⟩

/-- C18 (hex rendering is injective). For two digests of twenty bytes, the keys the `%02X`
loop of `hexify` writes are equal only if the digests are equal; so, when SHA1 yields these
digests for two inputs, the inputs get the same key exactly when their digests are equal. -/
theorem C18_hex_injective (L : Libs) (d d1 : List (Fin 256))
    (hl : d.length = SHA_DIGEST_LENGTH) (hl1 : d1.length = SHA_DIGEST_LENGTH) :
    (hexify_loop d SHA_DIGEST_LENGTH = hexify_loop d1 SHA_DIGEST_LENGTH ↔ d = d1) ∧
    ∀ (u t u1 t1 : List Char) (a a1 : Int) (hex hex1 : List Char),
      L.sha1_found = true →
      L.EVP_Digest (sprintf_s_s_d u t a) = some d →
      L.EVP_Digest (sprintf_s_s_d u1 t1 a1) = some d1 →
      (hexify L u t a hex = hexify L u1 t1 a1 hex1 ↔ d = d1) := by
  have hloop : hexify_loop d SHA_DIGEST_LENGTH = hexify_loop d1 SHA_DIGEST_LENGTH ↔ d = d1 :=
    ⟨hexify_loop_injective hl hl1, fun h => by rw [h]⟩
  refine ⟨hloop, ?_⟩
  intro u t u1 t1 a a1 hex hex1 hfound hd hd1
  rw [hexify_of_digest hfound hd hl, hexify_of_digest hfound hd1 hl1]
  exact hloop

/-- Witness of C18: the digests of twenty bytes 0 and of twenty bytes 1 get different keys. -/
theorem C18_hex_injective_witness :
    ((List.replicate 20 (0 : Fin 256)).length = SHA_DIGEST_LENGTH ∧
      (List.replicate 20 (1 : Fin 256)).length = SHA_DIGEST_LENGTH) ∧
    (hexify_loop (List.replicate 20 0) SHA_DIGEST_LENGTH
        = hexify_loop (List.replicate 20 1) SHA_DIGEST_LENGTH ↔
      List.replicate 20 (0 : Fin 256) = List.replicate 20 1) :=
  ⟨by decide,
    (C18_hex_injective sampleLibs (List.replicate 20 0) (List.replicate 20 1)
      (by decide) (by decide)).1⟩

end Cache
